import Mathlib

/-!
Shallow embedding of the subtitle-cue pipeline of VideoSubtitleCleanser.

Times are modelled as rationals (the Python source uses floats); Python
lists of words become Lean lists.  Each definition is translated from the
named source function.
-/

/-- A normalized word token, as produced by the first pass of
`parse_aws_transcript_to_ass` (src/video_to_subtitle.py): content with any
trailing punctuation attached, start/end times in seconds, speaker label. -/
structure WordTok where
  content : String
  start_time : ℚ
  end_time : ℚ
  speaker : String
deriving DecidableEq

/-- A subtitle segment (cue), as built by `parse_aws_transcript_to_ass`
(src/video_to_subtitle.py): `text` is the ordered list of word contents. -/
structure Segment where
  start_time : ℚ
  end_time : ℚ
  speaker : String
  text : List String
  speaker_changed : Bool
deriving DecidableEq

/-- A raw transcript item from the first pass of
`parse_aws_transcript_to_ass`: a pronunciation item carries content, times
and the resolved speaker; a punctuation item carries only its content. -/
inductive RawItem where
  | pron (content : String) (start_time end_time : ℚ) (speaker : String)
  | punct (content : String)
deriving DecidableEq

/-- Append a punctuation content to the last word of the list, as in the
`punctuation` branch of the first pass (`words[-1]['content'] += punct`). -/
def appendPunct (ws : List WordTok) (p : String) : List WordTok :=
  match ws.getLast? with
  | none => ws
  | some w => ws.dropLast ++ [{ w with content := w.content ++ p }]

/-- Token Normalizer: first pass of `parse_aws_transcript_to_ass`
(src/video_to_subtitle.py, lines 1134-1184). Pronunciation items become
word tokens; punctuation items are appended to the preceding word. -/
def normalizeItems (items : List RawItem) : List WordTok :=
  items.foldl
    (fun ws item =>
      match item with
      | RawItem.pron c s e spk => ws ++ [⟨c, s, e, spk⟩]
      | RawItem.punct p => appendPunct ws p)
    []

/-- The first segment, initialized from the first token
(src/video_to_subtitle.py, lines 1195-1202). -/
def initSegment (w : WordTok) : Segment :=
  ⟨w.start_time, w.end_time, w.speaker, [w.content], false⟩

/-- Segmenter loop of `parse_aws_transcript_to_ass`
(src/video_to_subtitle.py, lines 1207-1251): `prevSpeaker` and `prevEnd`
are the previous token's speaker and end time, carried exactly as the
source's `prev_speaker` / `prev_end_time` variables. -/
def segAux (cur : Segment) (prevSpeaker : String) (prevEnd : ℚ) :
    List WordTok → List Segment
  | [] => [cur]
  | w :: ws =>
    if w.speaker ≠ prevSpeaker ∨ w.start_time - prevEnd > 7/10 ∨
        12 ≤ cur.text.length ∨ w.end_time - cur.start_time > 5 then
      cur :: segAux ⟨w.start_time, w.end_time, w.speaker, [w.content],
        decide (w.speaker ≠ prevSpeaker)⟩ w.speaker w.end_time ws
    else
      segAux { cur with end_time := w.end_time, text := cur.text ++ [w.content] }
        w.speaker w.end_time ws

/-- Segmenter: groups the word tokens into segments
(src/video_to_subtitle.py, lines 1192-1254). -/
def segmentTokens : List WordTok → List Segment
  | [] => []
  | w :: ws => segAux (initSegment w) w.speaker w.end_time ws

/-- A segment merged into its predecessor: the predecessor's end time is
extended and the texts concatenated (src/video_to_subtitle.py,
lines 1272-1274). -/
def mergedSeg (prev cur : Segment) : Segment :=
  { prev with end_time := cur.end_time, text := prev.text ++ cur.text }

/-- Cue Merger loop of `parse_aws_transcript_to_ass`
(src/video_to_subtitle.py, lines 1258-1279): `prev` is the last element of
the merged list, which is the only one ever compared or modified. -/
def mergeAux (prev : Segment) : List Segment → List Segment
  | [] => [prev]
  | cur :: rest =>
    if cur.speaker_changed = false ∧ cur.speaker = prev.speaker ∧
        cur.start_time - prev.end_time < 3/10 ∧
        prev.text.length + cur.text.length ≤ 12 then
      mergeAux (mergedSeg prev cur) rest
    else
      prev :: mergeAux cur rest

/-- Cue Merger (src/video_to_subtitle.py, lines 1258-1279); a sequence of
fewer than two segments is returned unchanged, as in the source's
`if len(segments) > 1` guard. -/
def mergeSegments : List Segment → List Segment
  | [] => []
  | s :: rest => mergeAux s rest

/-- Minimum-duration extension (src/video_to_subtitle.py, lines 1281-1285):
any segment shorter than 1.0s gets its end time set to start + 1.0. -/
def minDurationStage (segs : List Segment) : List Segment :=
  segs.map fun s =>
    if s.end_time - s.start_time < 1 then { s with end_time := s.start_time + 1 }
    else s

/-- The pipeline from raw items to final segments: normalization,
segmentation, merging, minimum-duration extension
(src/video_to_subtitle.py, `parse_aws_transcript_to_ass`). -/
def segmentPipeline (items : List RawItem) : List Segment :=
  minDurationStage (mergeSegments (segmentTokens (normalizeItems items)))

/-- The segmentation loop reworded exactly as the spec describes it: a new
cue starts when the token's speaker differs from the current cue's speaker,
or the token's start minus the previous token's end (which is the cue's
current end time) exceeds 0.7s, or the cue already holds 12 words, or
extending the cue to the token's end would exceed 5.0s duration; otherwise
the token's text is appended and the cue's end time becomes the token's
end time.  Stated over the cue alone, with no separate previous-token
state, to be compared with `segAux`. -/
def specSegAux (cur : Segment) : List WordTok → List Segment
  | [] => [cur]
  | w :: ws =>
    if w.speaker ≠ cur.speaker ∨ w.start_time - cur.end_time > 7/10 ∨
        12 ≤ cur.text.length ∨ w.end_time - cur.start_time > 5 then
      cur :: specSegAux ⟨w.start_time, w.end_time, w.speaker, [w.content],
        decide (w.speaker ≠ cur.speaker)⟩ ws
    else
      specSegAux { cur with end_time := w.end_time, text := cur.text ++ [w.content] } ws

theorem segAux_eq_specSegAux :
    ∀ (ws : List WordTok) (cur : Segment),
      segAux cur cur.speaker cur.end_time ws = specSegAux cur ws := by
  intro ws
  induction ws with
  | nil => intro cur; rfl
  | cons w ws ih =>
    intro cur
    by_cases h : w.speaker ≠ cur.speaker ∨ w.start_time - cur.end_time > 7/10 ∨
        12 ≤ cur.text.length ∨ w.end_time - cur.start_time > 5
    · rw [segAux, specSegAux, if_pos h, if_pos h]
      have := ih ⟨w.start_time, w.end_time, w.speaker, [w.content],
        decide (w.speaker ≠ cur.speaker)⟩
      exact congrArg (cur :: ·) this
    · rw [segAux, specSegAux, if_neg h, if_neg h]
      have hspk : w.speaker = cur.speaker := by
        by_contra hc
        exact h (Or.inl hc)
      have := ih { cur with end_time := w.end_time, text := cur.text ++ [w.content] }
      rw [hspk]
      exact this

/-- Claim C1: for every non-empty normalized word-token sequence, the
Segmenter initializes the first cue from the first token and, for each
subsequent token, starts a new cue exactly when the token's speaker
differs from the current cue's speaker, or the gap since the previous
token's end exceeds 0.7s, or the cue already holds 12 words, or extending
to the token's end would exceed the 5.0s maximum duration; otherwise the
token's text is appended and the cue's end time becomes the token's end
time.  `specSegAux` is the claim's wording; `segmentTokens` is the code. -/
theorem segmenter_matches_spec (w : WordTok) (ws : List WordTok) :
    segmentTokens (w :: ws) = specSegAux (initSegment w) ws := by
  have h := segAux_eq_specSegAux ws (initSegment w)
  exact h

theorem mergeAux_head_survives :
    ∀ (rest : List Segment) (prev : Segment),
      ∃ t, t ∈ mergeAux prev rest ∧ t.start_time = prev.start_time ∧
        t.speaker = prev.speaker ∧ t.speaker_changed = prev.speaker_changed ∧
        ∃ u, t.text = prev.text ++ u := by
  intro rest
  induction rest with
  | nil =>
    intro prev
    exact ⟨prev, List.mem_singleton.mpr rfl, rfl, rfl, rfl, [], (List.append_nil _).symm⟩
  | cons cur rest ih =>
    intro prev
    rw [mergeAux]
    by_cases h : cur.speaker_changed = false ∧ cur.speaker = prev.speaker ∧
        cur.start_time - prev.end_time < 3/10 ∧
        prev.text.length + cur.text.length ≤ 12
    · rw [if_pos h]
      obtain ⟨t, hmem, hst, hsp, hch, u, hu⟩ := ih (mergedSeg prev cur)
      exact ⟨t, hmem, hst, hsp, hch, cur.text ++ u, by
        rw [hu]; simp [mergedSeg]⟩
    · rw [if_neg h]
      exact ⟨prev, List.mem_cons_self _ _, rfl, rfl, rfl, [], (List.append_nil _).symm⟩

theorem mergeAux_mem_survives :
    ∀ (rest : List Segment) (prev s : Segment), s ∈ rest → s.speaker_changed = true →
      ∃ t, t ∈ mergeAux prev rest ∧ t.start_time = s.start_time ∧
        t.speaker = s.speaker ∧ t.speaker_changed = true ∧
        ∃ u, t.text = s.text ++ u := by
  intro rest
  induction rest with
  | nil => intro prev s hs; exact absurd hs (List.not_mem_nil s)
  | cons cur rest ih =>
    intro prev s hs hflag
    rw [mergeAux]
    rcases List.mem_cons.mp hs with heq | hmem
    · subst heq
      have hcond : ¬(s.speaker_changed = false ∧ s.speaker = prev.speaker ∧
          s.start_time - prev.end_time < 3/10 ∧
          prev.text.length + s.text.length ≤ 12) := by
        intro hc
        rw [hflag] at hc
        exact absurd hc.1 (by simp)
      rw [if_neg hcond]
      obtain ⟨t, hmem, hst, hsp, hch, u, hu⟩ := mergeAux_head_survives rest s
      exact ⟨t, List.mem_cons_of_mem _ hmem, hst, hsp, by rw [hch, hflag], u, hu⟩
    · by_cases h : cur.speaker_changed = false ∧ cur.speaker = prev.speaker ∧
          cur.start_time - prev.end_time < 3/10 ∧
          prev.text.length + cur.text.length ≤ 12
      · rw [if_pos h]
        exact ih (mergedSeg prev cur) s hmem hflag
      · rw [if_neg h]
        obtain ⟨t, ht, rest'⟩ := ih cur s hmem hflag
        exact ⟨t, List.mem_cons_of_mem _ ht, rest'⟩

/-- Claim C2: the Merger merges a cue into its immediate predecessor
exactly when the cue's `speaker_changed` flag is false, its speaker equals
the predecessor's, the gap to the predecessor's end is strictly under
0.3s, and the combined word count is at most 12 (first conjunct: the
step recurrence of the merge); in particular a cue with
`speaker_changed = true` is never absorbed: it survives into the merged
output with its start time, speaker and flag intact, at most extended by
later merges into it (second conjunct). -/
theorem merger_characterization :
    (∀ (prev cur : Segment) (rest : List Segment),
      mergeSegments (prev :: cur :: rest) =
        if cur.speaker_changed = false ∧ cur.speaker = prev.speaker ∧
            cur.start_time - prev.end_time < 3/10 ∧
            prev.text.length + cur.text.length ≤ 12 then
          mergeSegments (mergedSeg prev cur :: rest)
        else
          prev :: mergeSegments (cur :: rest)) ∧
    (∀ (segs : List Segment) (s : Segment), s ∈ segs → s.speaker_changed = true →
      ∃ t, t ∈ mergeSegments segs ∧ t.start_time = s.start_time ∧
        t.speaker = s.speaker ∧ t.speaker_changed = true ∧
        ∃ u, t.text = s.text ++ u) := by
  constructor
  · intro prev cur rest
    rw [mergeSegments, mergeAux]
    by_cases h : cur.speaker_changed = false ∧ cur.speaker = prev.speaker ∧
        cur.start_time - prev.end_time < 3/10 ∧
        prev.text.length + cur.text.length ≤ 12
    · rw [if_pos h, if_pos h]; rfl
    · rw [if_neg h, if_neg h]; rfl
  · intro segs s hs hflag
    match segs, hs with
    | p :: rest, hs =>
      rcases List.mem_cons.mp hs with heq | hmem
      · subst heq
        obtain ⟨t, ht, rest'⟩ := mergeAux_head_survives rest s
        exact ⟨t, ht, rest'.1, rest'.2.1, by rw [rest'.2.2.1, hflag], rest'.2.2.2⟩
      · exact mergeAux_mem_survives rest p s hmem hflag

/-- Witness for C2: a concrete speaker-changed cue surviving the merge. -/
theorem merger_characterization_witness :
    ∃ t, t ∈ mergeSegments [⟨0, 1, "spk_1", ["Hi"], true⟩] ∧
      t.start_time = (⟨0, 1, "spk_1", ["Hi"], true⟩ : Segment).start_time ∧
      t.speaker = (⟨0, 1, "spk_1", ["Hi"], true⟩ : Segment).speaker ∧
      t.speaker_changed = true ∧
      ∃ u, t.text = (⟨0, 1, "spk_1", ["Hi"], true⟩ : Segment).text ++ u :=
  merger_characterization.2 [⟨0, 1, "spk_1", ["Hi"], true⟩]
    ⟨0, 1, "spk_1", ["Hi"], true⟩ (List.mem_singleton.mpr rfl) rfl

/-- Adjacent tokens do not overlap: each token starts no earlier than the
previous end time (the spec's WordToken time-ordering assumption). -/
def toksSeparated : ℚ → List WordTok → Prop
  | _, [] => True
  | e, w :: ws => e ≤ w.start_time ∧ toksSeparated w.end_time ws

/-- No adjacent pair of cues overlaps in time. -/
def noCueOverlap (segs : List Segment) : Prop :=
  List.Chain' (fun a b => a.end_time ≤ b.start_time) segs

theorem segAux_head_start :
    ∀ (ws : List WordTok) (cur : Segment) (pS : String) (pE : ℚ),
      ∃ s tl, segAux cur pS pE ws = s :: tl ∧ s.start_time = cur.start_time := by
  intro ws
  induction ws with
  | nil => intro cur pS pE; exact ⟨cur, [], rfl, rfl⟩
  | cons w ws ih =>
    intro cur pS pE
    rw [segAux]
    by_cases h : w.speaker ≠ pS ∨ w.start_time - pE > 7/10 ∨
        12 ≤ cur.text.length ∨ w.end_time - cur.start_time > 5
    · rw [if_pos h]
      exact ⟨cur, _, rfl, rfl⟩
    · rw [if_neg h]
      obtain ⟨s, tl, heq, hst⟩ :=
        ih { cur with end_time := w.end_time, text := cur.text ++ [w.content] }
          w.speaker w.end_time
      exact ⟨s, tl, heq, hst⟩

theorem segAux_chain :
    ∀ (ws : List WordTok) (cur : Segment) (pS : String) (pE : ℚ),
      cur.end_time = pE → toksSeparated pE ws →
      noCueOverlap (segAux cur pS pE ws) := by
  intro ws
  induction ws with
  | nil =>
    intro cur pS pE _ _
    exact List.chain'_singleton cur
  | cons w ws ih =>
    intro cur pS pE hend hsep
    obtain ⟨hle, hsep'⟩ := hsep
    rw [segAux]
    by_cases h : w.speaker ≠ pS ∨ w.start_time - pE > 7/10 ∨
        12 ≤ cur.text.length ∨ w.end_time - cur.start_time > 5
    · rw [if_pos h]
      have hrec := ih ⟨w.start_time, w.end_time, w.speaker, [w.content],
          decide (w.speaker ≠ pS)⟩ w.speaker w.end_time rfl hsep'
      refine List.chain'_cons'.mpr ⟨?_, hrec⟩
      intro y hy
      obtain ⟨s, tl, heq, hst⟩ := segAux_head_start ws
        ⟨w.start_time, w.end_time, w.speaker, [w.content], decide (w.speaker ≠ pS)⟩
        w.speaker w.end_time
      rw [heq] at hy
      simp only [List.head?_cons, Option.mem_def, Option.some.injEq] at hy
      rw [← hy, hst, hend]
      exact hle
    · rw [if_neg h]
      exact ih { cur with end_time := w.end_time, text := cur.text ++ [w.content] }
        w.speaker w.end_time rfl hsep'

theorem mergeAux_head_start :
    ∀ (rest : List Segment) (prev : Segment),
      ∃ s tl, mergeAux prev rest = s :: tl ∧ s.start_time = prev.start_time := by
  intro rest
  induction rest with
  | nil => intro prev; exact ⟨prev, [], rfl, rfl⟩
  | cons cur rest ih =>
    intro prev
    rw [mergeAux]
    by_cases h : cur.speaker_changed = false ∧ cur.speaker = prev.speaker ∧
        cur.start_time - prev.end_time < 3/10 ∧
        prev.text.length + cur.text.length ≤ 12
    · rw [if_pos h]
      obtain ⟨s, tl, heq, hst⟩ := ih (mergedSeg prev cur)
      exact ⟨s, tl, heq, hst⟩
    · rw [if_neg h]
      exact ⟨prev, _, rfl, rfl⟩

theorem mergeAux_chain :
    ∀ (rest : List Segment) (prev : Segment),
      noCueOverlap (prev :: rest) → noCueOverlap (mergeAux prev rest) := by
  intro rest
  induction rest with
  | nil => intro prev _; exact List.chain'_singleton prev
  | cons cur rest ih =>
    intro prev hchain
    obtain ⟨hR, hchain'⟩ := List.chain'_cons.mp hchain
    rw [mergeAux]
    by_cases h : cur.speaker_changed = false ∧ cur.speaker = prev.speaker ∧
        cur.start_time - prev.end_time < 3/10 ∧
        prev.text.length + cur.text.length ≤ 12
    · rw [if_pos h]
      refine ih (mergedSeg prev cur) ?_
      refine List.chain'_cons'.mpr ⟨?_, (List.chain'_cons'.mp hchain').2⟩
      intro y hy
      have := (List.chain'_cons'.mp hchain').1 y hy
      exact this
    · rw [if_neg h]
      refine List.chain'_cons'.mpr ⟨?_, ih cur hchain'⟩
      intro y hy
      obtain ⟨s, tl, heq, hst⟩ := mergeAux_head_start rest cur
      rw [heq] at hy
      simp only [List.head?_cons, Option.mem_def, Option.some.injEq] at hy
      rw [← hy, hst]
      exact hR

/-- Counterexample to claim C3 as stated: after the minimum-duration
extension, two adjacent cues produced by the pipeline overlap.  The two
same-speaker tokens are separated by a 0.75s pause (a cue boundary without
a speaker change), the first cue is 0.2s long and gets extended to end at
1.0, past the second cue's start at 0.95. -/
theorem merged_cues_can_overlap_after_min_duration :
    ¬ noCueOverlap (minDurationStage (mergeSegments (segmentTokens
      [⟨"A", 0, 1/5, "spk_0"⟩, ⟨"B", 19/20, 11/10, "spk_0"⟩]))) := by
  have hseg : segmentTokens [⟨"A", 0, 1/5, "spk_0"⟩, ⟨"B", 19/20, 11/10, "spk_0"⟩] =
      [⟨0, 1/5, "spk_0", ["A"], false⟩, ⟨19/20, 11/10, "spk_0", ["B"], false⟩] := by
    norm_num [segmentTokens, segAux, initSegment]
  rw [hseg]
  have hmerge : mergeSegments
      [(⟨0, 1/5, "spk_0", ["A"], false⟩ : Segment), ⟨19/20, 11/10, "spk_0", ["B"], false⟩] =
      [⟨0, 1/5, "spk_0", ["A"], false⟩, ⟨19/20, 11/10, "spk_0", ["B"], false⟩] := by
    norm_num [mergeSegments, mergeAux]
  rw [hmerge]
  have hmin : minDurationStage
      [(⟨0, 1/5, "spk_0", ["A"], false⟩ : Segment), ⟨19/20, 11/10, "spk_0", ["B"], false⟩] =
      [⟨0, 1, "spk_0", ["A"], false⟩, ⟨19/20, 39/20, "spk_0", ["B"], false⟩] := by
    norm_num [minDurationStage]
  rw [hmin]
  intro hchain
  have := (List.chain'_cons.mp hchain).1
  norm_num at this

/-- Claim C3, amended: for time-ordered, non-overlapping input tokens the
cue sequence after the Merger stage but before the minimum-duration
extension has no overlapping adjacent cues (`a.end_time ≤ b.start_time`);
the minimum-duration extension can break this, as
`merged_cues_can_overlap_after_min_duration` shows. -/
theorem merged_cues_no_overlap (w : WordTok) (ws : List WordTok)
    (hsep : toksSeparated w.end_time ws) :
    noCueOverlap (mergeSegments (segmentTokens (w :: ws))) := by
  have hchain : noCueOverlap (segmentTokens (w :: ws)) :=
    segAux_chain ws (initSegment w) w.speaker w.end_time rfl hsep
  obtain ⟨s, tl, heq, _⟩ := segAux_head_start ws (initSegment w) w.speaker w.end_time
  rw [show segmentTokens (w :: ws) = segAux (initSegment w) w.speaker w.end_time ws from rfl,
    heq] at hchain ⊢
  exact mergeAux_chain tl s hchain

/-- Witness for the amended C3 on concrete separated tokens. -/
theorem merged_cues_no_overlap_witness :
    noCueOverlap (mergeSegments (segmentTokens
      [⟨"Hi", 0, 1, "spk_0"⟩, ⟨"yo", 2, 3, "spk_0"⟩])) :=
  merged_cues_no_overlap ⟨"Hi", 0, 1, "spk_0"⟩ [⟨"yo", 2, 3, "spk_0"⟩]
    (by norm_num [toksSeparated])

/-- Claim C4: every cue produced after the Merger stage (merge followed by
the minimum-duration extension) lasts at least 1.0 second. -/
theorem min_duration_holds (toks : List WordTok) (s : Segment)
    (hs : s ∈ minDurationStage (mergeSegments (segmentTokens toks))) :
    1 ≤ s.end_time - s.start_time := by
  obtain ⟨x, _, hx⟩ := List.mem_map.mp hs
  by_cases h : x.end_time - x.start_time < 1
  · rw [if_pos h] at hx
    subst hx
    simp only
    linarith
  · rw [if_neg h] at hx
    subst hx
    linarith

/-- Witness for C4 on a concrete half-second token. -/
theorem min_duration_holds_witness :
    1 ≤ (⟨0, 1, "spk_0", ["A"], false⟩ : Segment).end_time -
      (⟨0, 1, "spk_0", ["A"], false⟩ : Segment).start_time :=
  min_duration_holds [⟨"A", 0, 1/2, "spk_0"⟩] ⟨0, 1, "spk_0", ["A"], false⟩
    (by norm_num [minDurationStage, mergeSegments, mergeAux, segmentTokens, segAux,
      initSegment])

/-- The Scenario A input of the spec (claim C5), as raw transcript items:
the comma is a punctuation item and is folded into the preceding word. -/
def scenarioAItems : List RawItem :=
  [RawItem.pron "Hello" 0 (1/2) "spk_0",
   RawItem.pron "there" (1/2) (9/10) "spk_0",
   RawItem.punct ",",
   RawItem.pron "Bob" 2 (12/5) "spk_1"]

/-- Counterexample to claim C5 as stated: the first cue of Scenario A does
not keep its end time 0.9 — the minimum-duration rule extends it to 1.0,
because the cue is only 0.9s long. -/
theorem scenarioA_first_cue_end_extended :
    (segmentPipeline scenarioAItems).head?.map Segment.end_time = some 1 ∧
      (1 : ℚ) ≠ 9/10 := by
  constructor
  · have h : segmentPipeline scenarioAItems =
        [⟨0, 1, "spk_0", ["Hello", "there,"], false⟩, ⟨2, 3, "spk_1", ["Bob"], true⟩] := by
      norm_num [segmentPipeline, scenarioAItems, normalizeItems, appendPunct,
        minDurationStage, mergeSegments, mergeAux, segmentTokens, segAux, initSegment]
      decide
    rw [h]
    rfl
  · norm_num

/-- Claim C5, amended: running normalization, segmentation, merging and the
minimum-duration extension on the Scenario A tokens yields exactly two
cues: "Hello there," spoken by spk_0, start 0.0, end extended from 0.9 to
1.0 by the minimum-duration rule, speakerChanged false; and "Bob" spoken
by spk_1, start 2.0, end extended from 2.4 to 3.0, speakerChanged true. -/
theorem scenarioA_pipeline_output :
    segmentPipeline scenarioAItems =
      [⟨0, 1, "spk_0", ["Hello", "there,"], false⟩, ⟨2, 3, "spk_1", ["Bob"], true⟩] ∧
    (segmentPipeline scenarioAItems).map (fun s => String.intercalate " " s.text) =
      ["Hello there,", "Bob"] := by
  have h : segmentPipeline scenarioAItems =
      [⟨0, 1, "spk_0", ["Hello", "there,"], false⟩, ⟨2, 3, "spk_1", ["Bob"], true⟩] := by
    norm_num [segmentPipeline, scenarioAItems, normalizeItems, appendPunct,
      minDurationStage, mergeSegments, mergeAux, segmentTokens, segAux, initSegment]
    decide
  refine ⟨h, ?_⟩
  rw [h]
  rfl

/-! Fallback speaker-change heuristic
(`generate_ass_from_video_whisper`, src/video_to_subtitle.py lines
1642-1658, and `apply_speaker_diarization`, src/direct_video_to_ass.py
lines 340-357 — both loops are identical).  Cue texts are lists of
characters; ASCII case predicates model Python's `isupper` and the regex
character classes. -/

/-- Python `s.endswith(c)` for a single character. -/
def pyEndsWith (cs : List Char) (c : Char) : Bool :=
  decide (cs.getLast? = some c)

/-- Python `s.startswith(c)` for a single character. -/
def pyStartsWith (cs : List Char) (c : Char) : Bool :=
  decide (cs.head? = some c)

/-- Python `re.match(r'^[A-Z][a-z]+:', s) is not None`: an uppercase
letter, one or more lowercase letters, then a colon, at the start. -/
def matchNameColon (cs : List Char) : Bool :=
  match cs with
  | [] => false
  | c :: rest =>
    c.isUpper && decide (rest.takeWhile Char.isLower ≠ []) &&
      decide ((rest.dropWhile Char.isLower).head? = some ':')

/-- The per-pair speaker-change heuristic of the source: flag a change when
the current cue starts with a dash, or starts with an unclosed quote, or
matches the name-colon pattern, or starts a new capitalized sentence after
terminal punctuation; additionally force the flag when the previous cue
ends in a question mark and the current one does not. -/
def speakerChangeFlag (prev curr : List Char) : Bool :=
  let sentence_end := pyEndsWith prev '.' || pyEndsWith prev '?' || pyEndsWith prev '!'
  let starts_with_dash := pyStartsWith curr '-'
  let starts_with_quote := pyStartsWith curr '"' && ! pyEndsWith prev '"'
  let starts_with_name := matchNameColon curr
  let new_sentence := sentence_end && decide (0 < curr.length) && curr.headI.isUpper
  let base := starts_with_dash || starts_with_quote || starts_with_name || new_sentence
  if pyEndsWith prev '?' && ! pyEndsWith curr '?' then true else base

/-- The full flag list: the first cue is never flagged; each later cue is
flagged by `speakerChangeFlag` on the adjacent pair. -/
def fallbackSpeakerChanges : List (List Char) → List Bool
  | [] => []
  | t :: rest => false :: List.zipWith speakerChangeFlag (t :: rest) rest

/-- The heuristic as the claim words it: terminal punctuation on the
previous cue is required for the dash, quote and capital-letter triggers,
and there is no name-colon trigger. -/
def claimSpeakerChangeFlag (prev curr : List Char) : Bool :=
  ((pyEndsWith prev '.' || pyEndsWith prev '?' || pyEndsWith prev '!') &&
    (pyStartsWith curr '-' ||
     (pyStartsWith curr '"' && ! pyEndsWith prev '"') ||
     (decide (0 < curr.length) && curr.headI.isUpper))) ||
  (pyEndsWith prev '?' && ! pyEndsWith curr '?')

/-- Counterexample to claim C6 as stated: a cue starting with a dash is
flagged by the code even when the previous cue has no terminal
punctuation, where the claim's conjunction says no flag. -/
theorem fallback_flag_dash_needs_no_sentence_end :
    speakerChangeFlag (String.toList "hello") (String.toList "- hi") = true ∧
      claimSpeakerChangeFlag (String.toList "hello") (String.toList "- hi") = false := by
  constructor
  · decide
  · decide

theorem takeWhile_append_cons (p : Char → Bool) :
    ∀ (l : List Char) (c : Char) (r : List Char),
      (∀ d ∈ l, p d = true) → p c = false →
      (l ++ c :: r).takeWhile p = l ∧ (l ++ c :: r).dropWhile p = c :: r := by
  intro l
  induction l with
  | nil =>
    intro c r _ hc
    constructor
    · simp [List.takeWhile, hc]
    · simp [List.dropWhile, hc]
  | cons d l ih =>
    intro c r hl hc
    have hd : p d = true := hl d (List.mem_cons_self _ _)
    have := ih c r (fun x hx => hl x (List.mem_cons_of_mem _ hx)) hc
    constructor
    · simp [List.takeWhile, hd, this.1]
    · simp [List.dropWhile, hd, this.2]

theorem matchNameColon_iff (cs : List Char) :
    matchNameColon cs = true ↔
      ∃ c l rest, cs = c :: (l ++ ':' :: rest) ∧ c.isUpper = true ∧ l ≠ [] ∧
        ∀ d ∈ l, d.isLower = true := by
  constructor
  · intro h
    match cs, h with
    | c :: tail, h =>
      simp only [matchNameColon, Bool.and_eq_true, decide_eq_true_eq] at h
      obtain ⟨⟨hup, hne⟩, hcolon⟩ := h
      obtain ⟨c', tl', hdrop⟩ : ∃ c' tl', tail.dropWhile Char.isLower = c' :: tl' := by
        cases hd : tail.dropWhile Char.isLower with
        | nil => rw [hd] at hcolon; simp at hcolon
        | cons a b => exact ⟨a, b, rfl⟩
      rw [hdrop] at hcolon
      simp only [List.head?_cons, Option.some.injEq] at hcolon
      subst hcolon
      refine ⟨c, tail.takeWhile Char.isLower, tl', ?_, hup, hne, ?_⟩
      · rw [← hdrop, List.takeWhile_append_dropWhile]
      · intro d hd
        exact List.mem_takeWhile_imp hd
  · rintro ⟨c, l, rest, rfl, hup, hne, hlow⟩
    have hcol : Char.isLower ':' = false := by decide
    obtain ⟨htake, hdrop⟩ := takeWhile_append_cons Char.isLower l ':' rest hlow hcol
    simp only [matchNameColon, Bool.and_eq_true, decide_eq_true_eq]
    exact ⟨⟨hup, by rw [htake]; exact hne⟩, by rw [hdrop]; rfl⟩

/-- Claim C6, amended: with no explicit speaker labels, the heuristic flags
a change on the second cue of a pair exactly when the current cue starts
with a dash, or starts with a quotation mark the previous cue did not end
with, or begins with the name pattern (capital letter, one or more
lowercase letters, colon), or the previous cue ends in `.`, `?` or `!` and
the current cue starts with an uppercase letter, or the previous cue ends
in `?` and the current cue does not.  The dash, quote and name triggers do
not require terminal punctuation on the previous cue, unlike the claim's
wording. -/
theorem fallback_flag_characterization (prev curr : List Char) :
    speakerChangeFlag prev curr = true ↔
      (curr.head? = some '-' ∨
       (curr.head? = some '"' ∧ ¬ prev.getLast? = some '"') ∨
       (∃ c l rest, curr = c :: (l ++ ':' :: rest) ∧ c.isUpper = true ∧ l ≠ [] ∧
          ∀ d ∈ l, d.isLower = true) ∨
       ((prev.getLast? = some '.' ∨ prev.getLast? = some '?' ∨ prev.getLast? = some '!') ∧
          ∃ c cs, curr = c :: cs ∧ c.isUpper = true) ∨
       (prev.getLast? = some '?' ∧ ¬ curr.getLast? = some '?')) := by
  have hname := matchNameColon_iff curr
  have hhead : (0 < curr.length ∧ curr.headI.isUpper = true) ↔
      ∃ c cs, curr = c :: cs ∧ c.isUpper = true := by
    cases curr with
    | nil => simp
    | cons c cs => simp [List.headI]
  rw [speakerChangeFlag]
  by_cases hqa : (pyEndsWith prev '?' && ! pyEndsWith curr '?') = true
  · simp only [hqa, if_true]
    simp only [pyEndsWith, Bool.and_eq_true, Bool.not_eq_true', decide_eq_true_eq,
      decide_eq_false_iff_not] at hqa
    constructor
    · intro _
      exact Or.inr (Or.inr (Or.inr (Or.inr hqa)))
    · intro _
      trivial
  · rw [if_neg (by exact fun hc => hqa hc)]
    simp only [pyEndsWith, Bool.and_eq_true, Bool.not_eq_true', decide_eq_true_eq,
      decide_eq_false_iff_not] at hqa
    simp only [Bool.or_eq_true, Bool.and_eq_true, Bool.not_eq_true',
      pyStartsWith, pyEndsWith, decide_eq_true_eq, decide_eq_false_iff_not,
      hname]
    constructor
    · rintro (((h | h) | h) | ⟨⟨hse, hlen⟩, hup⟩)
      · exact Or.inl h
      · exact Or.inr (Or.inl h)
      · exact Or.inr (Or.inr (Or.inl h))
      · exact Or.inr (Or.inr (Or.inr (Or.inl
          ⟨or_assoc.mp hse, hhead.mp ⟨hlen, hup⟩⟩)))
    · rintro (h | h | h | ⟨hse, hex⟩ | h)
      · exact Or.inl (Or.inl (Or.inl h))
      · exact Or.inl (Or.inl (Or.inr h))
      · exact Or.inl (Or.inr h)
      · obtain ⟨hlen, hup⟩ := hhead.mpr hex
        exact Or.inr ⟨⟨or_assoc.mpr hse, hlen⟩, hup⟩
      · exact absurd h hqa

/-! Position Resolver: `detect_text_in_video`
(src/video_to_subtitle.py, lines 966-1007). -/

/-- A detected text bounding box, in absolute pixels. -/
structure TextRegion where
  x : ℕ
  y : ℕ
  w : ℕ
  h : ℕ
deriving DecidableEq

/-- Vertical center of a box: `center_y = y + (h // 2)`. -/
def centerY (r : TextRegion) : ℕ := r.y + r.h / 2

/-- All regions observed at a sampled timestamp inside the cue's time range
(`if start_time <= ts <= end_time: overlapping_regions.extend(regions)`). -/
def overlappingRegions (regionsByTime : List (ℚ × List TextRegion)) (s e : ℚ) :
    List TextRegion :=
  ((regionsByTime.filter fun p => decide (s ≤ p.1 ∧ p.1 ≤ e)).map Prod.snd).flatten

/-- Count of regions whose center lies in the top band
(`center_y < height * 0.3`). -/
def topCount (height : ℕ) (rs : List TextRegion) : ℕ :=
  rs.countP fun r => decide ((centerY r : ℚ) < (height : ℚ) * (3/10))

/-- Count of regions whose center lies in the bottom band; the source's
`elif` makes this conditional on the top test failing
(`elif center_y > height * (1 - 0.3)`). -/
def bottomCount (height : ℕ) (rs : List TextRegion) : ℕ :=
  rs.countP fun r => decide (¬ (centerY r : ℚ) < (height : ℚ) * (3/10) ∧
    (centerY r : ℚ) > (height : ℚ) * (7/10))

/-- Position decision of `detect_text_in_video` for one cue's time range:
text only at top → subtitles at bottom; only at bottom → top; both →
raised bottom; otherwise the bottom-center default. -/
def positionForSegment (height : ℕ) (regionsByTime : List (ℚ × List TextRegion))
    (s e : ℚ) : String :=
  let overlapping := overlappingRegions regionsByTime s e
  let top := topCount height overlapping
  let bottom := bottomCount height overlapping
  if 0 < top ∧ bottom = 0 then "bottom_center"
  else if 0 < bottom ∧ top = 0 then "top_center"
  else if 0 < top ∧ 0 < bottom then "raised_bottom"
  else "bottom_center"

/-- Claim C7: classifying each overlapping region by its bounding-box
vertical center, the cue position is TopCenter (`"top_center"`) when
regions occur only in the lower band, BottomCenter when only in the upper
band, RaisedBottom when in both, and BottomCenter when none are observed
(also when all observed regions lie in the middle band, which the
decision's final default covers). -/
theorem position_decision_table (height : ℕ)
    (regionsByTime : List (ℚ × List TextRegion)) (s e : ℚ) :
    positionForSegment height regionsByTime s e =
      (if (∃ r ∈ overlappingRegions regionsByTime s e,
            (centerY r : ℚ) > (height : ℚ) * (7/10)) ∧
          ¬ (∃ r ∈ overlappingRegions regionsByTime s e,
            (centerY r : ℚ) < (height : ℚ) * (3/10)) then "top_center"
       else if (∃ r ∈ overlappingRegions regionsByTime s e,
            (centerY r : ℚ) < (height : ℚ) * (3/10)) ∧
          ¬ (∃ r ∈ overlappingRegions regionsByTime s e,
            (centerY r : ℚ) > (height : ℚ) * (7/10)) then "bottom_center"
       else if (∃ r ∈ overlappingRegions regionsByTime s e,
            (centerY r : ℚ) < (height : ℚ) * (3/10)) ∧
          (∃ r ∈ overlappingRegions regionsByTime s e,
            (centerY r : ℚ) > (height : ℚ) * (7/10)) then "raised_bottom"
       else "bottom_center") := by
  have hband : ∀ r : TextRegion, (centerY r : ℚ) > (height : ℚ) * (7/10) →
      ¬ (centerY r : ℚ) < (height : ℚ) * (3/10) := by
    intro r hgt hlt
    have h1 : (height : ℚ) * (3/10) ≤ (height : ℚ) * (7/10) := by
      have : (0 : ℚ) ≤ (height : ℚ) := Nat.cast_nonneg height
      nlinarith
    linarith
  have htop : 0 < topCount height (overlappingRegions regionsByTime s e) ↔
      ∃ r ∈ overlappingRegions regionsByTime s e,
        (centerY r : ℚ) < (height : ℚ) * (3/10) := by
    rw [topCount, List.countP_pos_iff]
    simp only [decide_eq_true_eq]
  have hbot : 0 < bottomCount height (overlappingRegions regionsByTime s e) ↔
      ∃ r ∈ overlappingRegions regionsByTime s e,
        (centerY r : ℚ) > (height : ℚ) * (7/10) := by
    rw [bottomCount, List.countP_pos_iff]
    simp only [decide_eq_true_eq]
    constructor
    · rintro ⟨r, hr, _, hgt⟩
      exact ⟨r, hr, hgt⟩
    · rintro ⟨r, hr, hgt⟩
      exact ⟨r, hr, hband r hgt, hgt⟩
  have htop0 : topCount height (overlappingRegions regionsByTime s e) = 0 ↔
      ¬ ∃ r ∈ overlappingRegions regionsByTime s e,
        (centerY r : ℚ) < (height : ℚ) * (3/10) := by
    rw [← htop]
    omega
  have hbot0 : bottomCount height (overlappingRegions regionsByTime s e) = 0 ↔
      ¬ ∃ r ∈ overlappingRegions regionsByTime s e,
        (centerY r : ℚ) > (height : ℚ) * (7/10) := by
    rw [← hbot]
    omega
  rw [positionForSegment]
  simp only [htop, hbot, htop0, hbot0]
  by_cases hu : ∃ r ∈ overlappingRegions regionsByTime s e,
      (centerY r : ℚ) < (height : ℚ) * (3/10) <;>
    by_cases hl : ∃ r ∈ overlappingRegions regionsByTime s e,
      (centerY r : ℚ) > (height : ℚ) * (7/10) <;>
    simp [hu, hl]

/-! ASS serialization: `format_time_ass` (src/video_to_subtitle.py, lines
302-315) and the Dialogue-line writing of `parse_aws_transcript_to_ass`
(lines 1359-1396). -/

/-- Python `f"{n:02d}"`: decimal rendering padded to width two. -/
def padTwo (n : ℕ) : String :=
  if n < 10 then "0" ++ Nat.repr n else Nat.repr n

/-- `format_time_ass` for a non-negative number of seconds:
`timedelta(seconds=s)` holds whole microseconds (rounded; ties modelled
upward) and `td.seconds` drops whole days; then
`hours, rem = divmod(td.seconds, 3600)`, `minutes, seconds = divmod(rem, 60)`,
`centiseconds = int(td.microseconds / 10000)`, rendered as
`f"{hours}:{minutes:02d}:{seconds:02d}.{centiseconds:02d}"`. -/
def formatTimeAss (s : ℚ) : String :=
  let totalMicro : ℕ := (⌊s * 1000000 + 1/2⌋).toNat
  let micro : ℕ := totalMicro % 1000000
  let tdSeconds : ℕ := (totalMicro / 1000000) % 86400
  let hours := tdSeconds / 3600
  let remainder := tdSeconds % 3600
  let minutes := remainder / 60
  let seconds := remainder % 60
  let centi := micro / 10000
  Nat.repr hours ++ ":" ++ padTwo minutes ++ ":" ++ padTwo seconds ++ "." ++
    padTwo centi

/-- Style lookup for a segment's time range: the first position-map entry
whose range overlaps the segment picks the style (`Top`, `RaisedBottom` or
`Default`); an overlapping entry with an unknown position string does not
break the loop. -/
def styleFor : List ((ℚ × ℚ) × String) → ℚ → ℚ → String
  | [], _, _ => "Default"
  | ((rangeStart, rangeEnd), pos) :: rest, s, e =>
    if ¬ (e < rangeStart ∨ s > rangeEnd) then
      if pos = "top_center" then "Top"
      else if pos = "raised_bottom" then "RaisedBottom"
      else if pos = "bottom_center" then "Default"
      else styleFor rest s e
    else styleFor rest s e

/-- One ASS `Dialogue` event line for segment index `i`: the segment's
words joined by spaces, a `-- ` marker when `speaker_changed` and `i > 0`,
the style resolved from the position map, and the
`Dialogue: 0,start,end,style,,0,0,0,,text` layout. -/
def assDialogueLine (i : ℕ) (positionMap : List ((ℚ × ℚ) × String))
    (seg : Segment) : String :=
  let text0 := String.intercalate " " seg.text
  let text := if seg.speaker_changed = true ∧ 0 < i then "-- " ++ text0 else text0
  let style := styleFor positionMap seg.start_time seg.end_time
  "Dialogue: 0," ++ formatTimeAss seg.start_time ++ "," ++
    formatTimeAss seg.end_time ++ "," ++ style ++ ",,0,0,0,," ++ text

/-- Claim C8: serializing the cue `{text:["Hi"], start:1.0, end:2.0}` to
ASS yields exactly the
`Dialogue: 0,0:00:01.00,0:00:02.00,Default,,0,0,0,,Hi` event line; and the
ASS timestamp is `H:MM:SS.cc` with centisecond precision and an
unpadded hour field, shown for every hour value `n < 24` at time
`3600*n + 2.075` (whose 7.5 centiseconds truncate to `07`). -/
theorem ass_dialogue_line_format :
    assDialogueLine 0 [] ⟨1, 2, "spk_0", ["Hi"], false⟩ =
      "Dialogue: 0,0:00:01.00,0:00:02.00,Default,,0,0,0,,Hi" ∧
    ∀ n : ℕ, n < 24 →
      formatTimeAss (((3600 * n : ℕ) : ℚ) + 83/40) = Nat.repr n ++ ":00:02.07" := by
  constructor
  · norm_num [assDialogueLine, formatTimeAss, padTwo, styleFor]
    decide
  · intro n hn
    interval_cases n <;> norm_num [formatTimeAss, padTwo] <;> decide

/-- Witness for C8's general conjunct at hour 5. -/
theorem ass_dialogue_line_format_witness :
    formatTimeAss (((3600 * 5 : ℕ) : ℚ) + 83/40) = Nat.repr 5 ++ ":00:02.07" :=
  ass_dialogue_line_format.2 5 (by norm_num)

/-! Two-line wrapping of cue text.  Sources: the SRT, VLC-compatible SRT
and WebVTT branches of the subtitle writer `save_subtitles` in
src/backend/services/processing_service.py (wrap blocks at lines
1204-1219, 1159-1180 and 1287-1303; the writer's ASS branch, lines
1021-1115, emits each Dialogue text with no wrapping) and
`convert_vtt_to_srt` in src/generate_subtitle_formats.py
(lines 112-146).  Python strings are modelled as `List Char`. -/

/-- Python whitespace for `str.split()` / `str.strip()`. -/
def isPySpace (c : Char) : Bool :=
  c = ' ' || c = '\t' || c = '\n' || c = '\r' || c = '\x0b' || c = '\x0c'

/-- Python `s.split(sep)` for a one-character separator: split at every
occurrence, keeping empty pieces. -/
def pySplit (sep : Char) : List Char → List (List Char)
  | [] => [[]]
  | c :: cs =>
    if c = sep then [] :: pySplit sep cs
    else
      match pySplit sep cs with
      | [] => [[c]]
      | r :: rs => (c :: r) :: rs

/-- Python `s.strip()`: drop whitespace from both ends. -/
def pyStrip (cs : List Char) : List Char :=
  ((cs.dropWhile isPySpace).reverse.dropWhile isPySpace).reverse

/-- Python `s.split()` (no separator): maximal non-whitespace runs, with
fuel for structural recursion. -/
def pySplitWsAux : ℕ → List Char → List (List Char)
  | 0, _ => []
  | _, [] => []
  | fuel + 1, c :: cs =>
    if isPySpace c then pySplitWsAux fuel cs
    else (c :: cs.takeWhile (fun d => ! isPySpace d)) ::
      pySplitWsAux fuel (cs.dropWhile (fun d => ! isPySpace d))

/-- Python `s.split()` (no separator argument). -/
def pySplitWs (cs : List Char) : List (List Char) :=
  pySplitWsAux cs.length cs

/-- Python `' '.join(pieces)`. -/
def joinSpace : List (List Char) → List Char
  | [] => []
  | [w] => w
  | w :: ws => w ++ ' ' :: joinSpace ws

/-- The wrapping transform of the SRT branch
(src/backend/services/processing_service.py, lines 1204-1219): a text of
more than two lines is recombined from its stripped lines and, with more
than six words, re-split at the midpoint word index, else collapsed. -/
def srtWrapText (text : List Char) : List Char :=
  let lines := pySplit '\n' text
  if 2 < lines.length then
    let combined := joinSpace (lines.map pyStrip)
    let words := pySplitWs combined
    if 6 < words.length then
      joinSpace (words.take (words.length / 2)) ++
        '\n' :: joinSpace (words.drop (words.length / 2))
    else combined
  else text

/-- The wrapping transform of the WebVTT branch
(src/backend/services/processing_service.py, lines 1287-1303): textually
the same block as the SRT branch. -/
def vttWrapText (text : List Char) : List Char :=
  let lines := pySplit '\n' text
  if 2 < lines.length then
    let combined := joinSpace (lines.map pyStrip)
    let words := pySplitWs combined
    if 6 < words.length then
      joinSpace (words.take (words.length / 2)) ++
        '\n' :: joinSpace (words.drop (words.length / 2))
    else combined
  else text

/-- The wrapping transform of the VLC-compatible SRT branch
(`format == "vlc_srt"`, src/backend/services/processing_service.py,
lines 1159-1180): this branch first prepends an ASS override position tag
to the text, so before recombining, the leading 6-character tag
(`lines[0][:6]` when the first line starts with a brace and backslash) is
removed and re-prepended to the result. -/
def vlcSrtWrapText (text : List Char) : List Char :=
  let lines := pySplit '\n' text
  if 2 < lines.length then
    let pref := match lines with
      | l0 :: _ => if l0.take 2 = ['\x7b', '\\'] then l0.take 6 else []
      | [] => []
    let lines' := match lines with
      | l0 :: rest => if l0.take 2 = ['\x7b', '\\'] then l0.drop 6 :: rest else lines
      | [] => lines
    let combined := joinSpace (lines'.map pyStrip)
    let words := pySplitWs combined
    if 6 < words.length then
      pref ++ joinSpace (words.take (words.length / 2)) ++
        '\n' :: joinSpace (words.drop (words.length / 2))
    else pref ++ combined
  else text

/-- The wrapping portion of `convert_vtt_to_srt`
(src/generate_subtitle_formats.py, lines 112-146): cue index `i` and the
`vlc_compatible` flag select the hard-coded cue-4 text or position-tag
preservation; with `vlc = false` only the plain midpoint split remains. -/
def convertVttWrapText (i : ℕ) (vlc : Bool) (positionTag : List Char)
    (text : List Char) : List Char :=
  let lines := pySplit '\n' text
  if 2 < lines.length then
    let combined := joinSpace (lines.map pyStrip)
    let words := pySplitWs combined
    if 6 < words.length then
      if vlc && decide (i = 4) then
        positionTag ++
          String.toList "So when we initially called the API during the first reset," ++
          '\n' :: String.toList "the course from the deleted school doesn\x27t get added."
      else if vlc && decide (text.take 2 = ['\x7b', '\\']) then
        text.take 6 ++ joinSpace (words.take (words.length / 2)) ++
          '\n' :: joinSpace (words.drop (words.length / 2))
      else
        joinSpace (words.take (words.length / 2)) ++
          '\n' :: joinSpace (words.drop (words.length / 2))
    else
      if vlc && decide (text.take 2 = ['\x7b', '\\']) then
        text.take 6 ++ combined
      else combined
  else text

theorem pySplit_ne_nil (sep : Char) : ∀ cs, pySplit sep cs ≠ [] := by
  intro cs
  induction cs with
  | nil => simp [pySplit]
  | cons c cs ih =>
    rw [pySplit]
    by_cases h : c = sep
    · simp [h]
    · rw [if_neg h]
      cases heq : pySplit sep cs with
      | nil => simp
      | cons r rs => simp

theorem pySplit_no_sep (sep : Char) : ∀ cs, sep ∉ cs → pySplit sep cs = [cs] := by
  intro cs
  induction cs with
  | nil => intro _; rfl
  | cons c cs ih =>
    intro h
    have hc : ¬ c = sep := fun hc => h (by simp [hc])
    have hcs : sep ∉ cs := fun hm => h (List.mem_cons_of_mem _ hm)
    rw [pySplit, if_neg hc, ih hcs]

theorem pySplit_append (sep : Char) :
    ∀ (a cs r : List Char) (rs : List (List Char)), sep ∉ a →
      pySplit sep cs = r :: rs → pySplit sep (a ++ cs) = (a ++ r) :: rs := by
  intro a
  induction a with
  | nil => intro cs r rs _ h; simpa using h
  | cons x a ih =>
    intro cs r rs hmem h
    have hx : ¬ x = sep := fun hc => hmem (by simp [hc])
    have ha : sep ∉ a := fun hm => hmem (List.mem_cons_of_mem _ hm)
    rw [List.cons_append, pySplit, if_neg hx, ih cs r rs ha h]
    rfl

theorem pySplit_sep_cons (sep : Char) (a b : List Char) (ha : sep ∉ a) :
    pySplit sep (a ++ sep :: b) = a :: pySplit sep b := by
  have h0 : pySplit sep (sep :: b) = [] :: pySplit sep b := by
    rw [pySplit, if_pos rfl]
  cases hb : pySplit sep b with
  | nil => exact absurd hb (pySplit_ne_nil sep b)
  | cons r rs =>
    rw [hb] at h0
    have := pySplit_append sep a (sep :: b) [] (r :: rs) ha h0
    rw [this]
    simp

theorem pySplit_mem_no_sep (sep : Char) :
    ∀ (cs p : List Char), p ∈ pySplit sep cs → sep ∉ p := by
  intro cs
  induction cs with
  | nil =>
    intro p hp
    simp only [pySplit, List.mem_singleton] at hp
    subst hp
    simp
  | cons c cs ih =>
    intro p hp
    rw [pySplit] at hp
    by_cases h : c = sep
    · rw [if_pos h] at hp
      rcases List.mem_cons.mp hp with rfl | hm
      · simp
      · exact ih p hm
    · rw [if_neg h] at hp
      cases heq : pySplit sep cs with
      | nil => exact absurd heq (pySplit_ne_nil sep cs)
      | cons r rs =>
        rw [heq] at hp
        rcases List.mem_cons.mp hp with rfl | hm
        · intro hsep
          rcases List.mem_cons.mp hsep with h1 | h2
          · exact h h1.symm
          · exact ih r (heq ▸ List.mem_cons_self r rs) h2
        · exact ih p (heq ▸ List.mem_cons_of_mem r hm)

theorem mem_joinSpace :
    ∀ (ws : List (List Char)) (c : Char), c ∈ joinSpace ws →
      c = ' ' ∨ ∃ w ∈ ws, c ∈ w := by
  intro ws
  induction ws with
  | nil => intro c hc; simp [joinSpace] at hc
  | cons w ws ih =>
    intro c hc
    cases ws with
    | nil =>
      refine Or.inr ⟨w, List.mem_singleton.mpr rfl, ?_⟩
      simpa [joinSpace] using hc
    | cons w2 ws2 =>
      have hstep : joinSpace (w :: w2 :: ws2) = w ++ ' ' :: joinSpace (w2 :: ws2) := rfl
      rw [hstep] at hc
      rcases List.mem_append.mp hc with hw | htail
      · exact Or.inr ⟨w, List.mem_cons_self _ _, hw⟩
      · rcases List.mem_cons.mp htail with rfl | hj
        · exact Or.inl rfl
        · rcases ih c hj with hsp | ⟨w', hw', hc'⟩
          · exact Or.inl hsp
          · exact Or.inr ⟨w', List.mem_cons_of_mem _ hw', hc'⟩

theorem pySplitWsAux_no_space :
    ∀ (fuel : ℕ) (cs w : List Char), w ∈ pySplitWsAux fuel cs →
      ∀ c ∈ w, isPySpace c = false := by
  intro fuel
  induction fuel with
  | zero => intro cs w hw; simp [pySplitWsAux] at hw
  | succ fuel ih =>
    intro cs w hw c hc
    cases cs with
    | nil => simp [pySplitWsAux] at hw
    | cons x xs =>
      rw [pySplitWsAux] at hw
      by_cases hx : isPySpace x = true
      · rw [if_pos hx] at hw
        exact ih xs w hw c hc
      · rw [if_neg hx] at hw
        rcases List.mem_cons.mp hw with rfl | hm
        · rcases List.mem_cons.mp hc with rfl | hc2
          · simpa using hx
          · have := List.mem_takeWhile_imp hc2
            simpa using this
        · exact ih _ w hm c hc

theorem mem_pyStrip (cs : List Char) (c : Char) (hc : c ∈ pyStrip cs) : c ∈ cs := by
  rw [pyStrip] at hc
  have h1 := List.mem_reverse.mp hc
  have h2 := (List.dropWhile_sublist (l := (cs.dropWhile isPySpace).reverse)
    (p := isPySpace)).mem h1
  have h3 := List.mem_reverse.mp h2
  exact (List.dropWhile_sublist (l := cs) (p := isPySpace)).mem h3

theorem srtWrapText_line_count (t : List Char) (h : 2 < (pySplit '\n' t).length) :
    (pySplit '\n' (srtWrapText t)).length =
      if 6 < (pySplitWs (joinSpace ((pySplit '\n' t).map pyStrip))).length then 2
      else 1 := by
  have hcomb : '\n' ∉ joinSpace ((pySplit '\n' t).map pyStrip) := by
    intro hmem
    rcases mem_joinSpace _ _ hmem with hsp | ⟨w, hw, hc⟩
    · exact absurd hsp (by decide)
    · obtain ⟨p, hp, rfl⟩ := List.mem_map.mp hw
      exact pySplit_mem_no_sep '\n' t p hp (mem_pyStrip p '\n' hc)
  have hwords : ∀ w ∈ pySplitWs (joinSpace ((pySplit '\n' t).map pyStrip)),
      '\n' ∉ w := by
    intro w hw hmem
    have := pySplitWsAux_no_space _ _ w hw '\n' hmem
    simp [isPySpace] at this
  simp only [srtWrapText]
  rw [if_pos h]
  by_cases h6 : 6 < (pySplitWs (joinSpace ((pySplit '\n' t).map pyStrip))).length
  · rw [if_pos h6, if_pos h6]
    have hA : '\n' ∉ joinSpace ((pySplitWs (joinSpace
        ((pySplit '\n' t).map pyStrip))).take
        ((pySplitWs (joinSpace ((pySplit '\n' t).map pyStrip))).length / 2)) := by
      intro hmem
      rcases mem_joinSpace _ _ hmem with hsp | ⟨w, hw, hc⟩
      · exact absurd hsp (by decide)
      · exact hwords w (List.take_subset _ _ hw) hc
    have hB : '\n' ∉ joinSpace ((pySplitWs (joinSpace
        ((pySplit '\n' t).map pyStrip))).drop
        ((pySplitWs (joinSpace ((pySplit '\n' t).map pyStrip))).length / 2)) := by
      intro hmem
      rcases mem_joinSpace _ _ hmem with hsp | ⟨w, hw, hc⟩
      · exact absurd hsp (by decide)
      · exact hwords w (List.drop_subset _ _ hw) hc
    rw [pySplit_sep_cons '\n' _ _ hA, pySplit_no_sep '\n' _ hB]
    rfl
  · rw [if_neg h6, if_neg h6]
    rw [pySplit_no_sep '\n' _ hcomb]
    rfl

theorem vlcSrtWrapText_tagged (tag t : List Char) (hlen : tag.length = 6)
    (htag : tag.take 2 = ['\x7b', '\\']) (hnl : '\n' ∉ tag) :
    vlcSrtWrapText (tag ++ t) = tag ++ srtWrapText t := by
  obtain ⟨l0, rest, hsplit⟩ : ∃ l0 rest, pySplit '\n' t = l0 :: rest := by
    cases h : pySplit '\n' t with
    | nil => exact absurd h (pySplit_ne_nil '\n' t)
    | cons a b => exact ⟨a, b, rfl⟩
  have happ : pySplit '\n' (tag ++ t) = (tag ++ l0) :: rest :=
    pySplit_append '\n' tag t l0 rest hnl hsplit
  have htake2 : (tag ++ l0).take 2 = ['\x7b', '\\'] := by
    rw [List.take_append_eq_append_take, hlen]
    simp [htag]
  have htake6 : (tag ++ l0).take 6 = tag := by
    rw [List.take_append_eq_append_take, hlen]
    simp
    exact le_of_eq hlen
  have hdrop6 : (tag ++ l0).drop 6 = l0 := by
    rw [List.drop_append_eq_append_drop, hlen]
    simp [List.drop_of_length_le (le_of_eq hlen)]
  simp only [vlcSrtWrapText, srtWrapText, happ, hsplit, List.length_cons]
  by_cases h2 : 2 < rest.length + 1
  · rw [if_pos h2, if_pos h2, if_pos htake2, if_pos htake2, htake6, hdrop6]
    by_cases h6 : 6 < (pySplitWs (joinSpace ((l0 :: rest).map pyStrip))).length
    · rw [if_pos h6, if_pos h6]
      simp [List.append_assoc]
    · rw [if_neg h6, if_neg h6]
  · rw [if_neg h2, if_neg h2]

/-- Claim C9, amended: the recombine-and-midpoint-split transform is the
same function in the SRT and WebVTT branches of the backend
processing-service writer and, modulo re-prepending the 6-character
position tag, in its VLC-compatible SRT branch; the standalone VTT→SRT
converter's non-VLC path also equals it; and on any text of more than two
logical lines it produces exactly two lines when the combined text has
more than six words, else exactly one.  ASS output is not wrapped: the
ASS writer of video_to_subtitle.py, cited by the claim, emits the joined
text verbatim (the counterexample), and the processing-service writer's
own ASS branch, lines 1021-1115, has no wrapping block either. -/
theorem wrap_transform_across_formats :
    (∀ t, vttWrapText t = srtWrapText t) ∧
    (∀ (i : ℕ) (tagArg t : List Char),
      convertVttWrapText i false tagArg t = srtWrapText t) ∧
    (∀ tag t, tag.length = 6 → tag.take 2 = ['\x7b', '\\'] → '\n' ∉ tag →
      vlcSrtWrapText (tag ++ t) = tag ++ srtWrapText t) ∧
    (∀ t, 2 < (pySplit '\n' t).length →
      (pySplit '\n' (srtWrapText t)).length =
        if 6 < (pySplitWs (joinSpace ((pySplit '\n' t).map pyStrip))).length then 2
        else 1) := by
  refine ⟨fun t => rfl, fun i tagArg t => ?_, vlcSrtWrapText_tagged, srtWrapText_line_count⟩
  simp only [convertVttWrapText, srtWrapText, Bool.false_and]
  rfl

/-- Witness for C9's tagged VLC-SRT conjunct on a concrete tag and text. -/
theorem wrap_transform_across_formats_witness :
    vlcSrtWrapText ((['\x7b', '\\', 'a', 'n', '2', '\x7d'] : List Char) ++
        String.toList "a\nb\nc\nd e f g") =
      ['\x7b', '\\', 'a', 'n', '2', '\x7d'] ++
        srtWrapText (String.toList "a\nb\nc\nd e f g") :=
  wrap_transform_across_formats.2.2.1 ['\x7b', '\\', 'a', 'n', '2', '\x7d']
    (String.toList "a\nb\nc\nd e f g") (by decide) (by decide) (by decide)

/-- Counterexample to claim C9 as stated: the ASS writer of
`parse_aws_transcript_to_ass` (src/video_to_subtitle.py, lines 1359-1396)
emits the joined cue text verbatim; for a cue text of four logical lines
and seven words it does not recombine or midpoint-split, although the
wrapping transform would change it. -/
theorem ass_dialogue_text_not_wrapped :
    assDialogueLine 0 []
        ⟨0, 2, "spk_0", ["one\ntwo\nthree\nfour", "five", "six", "seven"], false⟩ =
      "Dialogue: 0,0:00:00.00,0:00:02.00,Default,,0,0,0,," ++
        "one\ntwo\nthree\nfour five six seven" ∧
    2 < (pySplit '\n' (String.toList "one\ntwo\nthree\nfour five six seven")).length ∧
    srtWrapText (String.toList "one\ntwo\nthree\nfour five six seven") ≠
      String.toList "one\ntwo\nthree\nfour five six seven" := by
  refine ⟨?_, by decide, by decide⟩
  norm_num [assDialogueLine, formatTimeAss, padTwo, styleFor]
  decide

/-! SRT timestamp utilities: `format_timestamp` and `parse_timestamp`
(src/backend/utils/file_utils.py, lines 43-78). -/

/-- Numeric value of a decimal digit character. -/
def dval (c : Char) : ℕ := c.toNat - 48

/-- A decimal digit character (`0`-`9`), the only content Python's
`int()` accepts in these timestamp fields. -/
def isDigitChar (c : Char) : Bool :=
  decide (48 ≤ c.toNat) && decide (c.toNat ≤ 57)

/-- Decimal digits of `n`, least significant first, with fuel. -/
def natToDigitsAux : ℕ → ℕ → List Char
  | 0, _ => []
  | fuel + 1, n =>
    if n = 0 then []
    else Char.ofNat (48 + n % 10) :: natToDigitsAux fuel (n / 10)

/-- Decimal rendering of `n` without padding (empty for zero; the zero
case is always padded below, as Python's width-2/width-3 formats are). -/
def natDigits (n : ℕ) : List Char := (natToDigitsAux n n).reverse

/-- Python `f"{n:0kd}"` padding: left-pad with zeros to width `k`. -/
def padN (k : ℕ) (cs : List Char) : List Char :=
  List.replicate (k - cs.length) '0' ++ cs

/-- `format_timestamp`: successive `divmod`s render milliseconds as
`HH:MM:SS,mmm`. -/
def formatTimestamp (ms : ℕ) : List Char :=
  let seconds := ms / 1000
  let milliseconds := ms % 1000
  let minutes := seconds / 60
  let secs := seconds % 60
  let hours := minutes / 60
  let mins := minutes % 60
  padN 2 (natDigits hours) ++ ':' ::
    (padN 2 (natDigits mins) ++ ':' ::
      (padN 2 (natDigits secs) ++ ',' :: padN 3 (natDigits milliseconds)))

/-- Decimal value accumulated left to right. -/
def valueOf (cs : List Char) : ℕ :=
  cs.foldl (fun a c => 10 * a + dval c) 0

/-- Python `int(s)` restricted to the plain digit strings these timestamp
fields contain: `none` models `ValueError`. -/
def pyIntDigits (cs : List Char) : Option ℕ :=
  if cs ≠ [] ∧ cs.all isDigitChar then some (valueOf cs) else none

/-- `parse_timestamp`: empty input gives 0, commas become periods, the
text splits on `:` into exactly three parts (else 0), the third part
splits on `.` into seconds and optional milliseconds, and any `int()`
failure gives 0. -/
def parseTimestamp (cs : List Char) : ℕ :=
  if cs = [] then 0
  else
    let ts := cs.map fun c => if c = ',' then '.' else c
    match pySplit ':' ts with
    | [p0, p1, p2] =>
      match pyIntDigits p0, pyIntDigits p1 with
      | some hours, some minutes =>
        match pySplit '.' p2 with
        | [] => 0
        | s0 :: rest =>
          match pyIntDigits s0 with
          | some seconds =>
            match rest with
            | [] => (hours * 3600 + minutes * 60 + seconds) * 1000
            | m :: _ =>
              match pyIntDigits m with
              | some milliseconds =>
                (hours * 3600 + minutes * 60 + seconds) * 1000 + milliseconds
              | none => 0
          | none => 0
      | _, _ => 0
    | _ => 0

theorem digitChar_props (c : Char) (h : isDigitChar c = true) :
    c ≠ ':' ∧ c ≠ ',' ∧ c ≠ '.' := by
  have h1 : 48 ≤ c.toNat ∧ c.toNat ≤ 57 := by
    simpa [isDigitChar] using h
  refine ⟨fun hc => ?_, fun hc => ?_, fun hc => ?_⟩ <;>
    (subst hc; revert h1; decide)

theorem dval_ofNat (d : ℕ) (hd : d < 10) : dval (Char.ofNat (48 + d)) = d := by
  interval_cases d <;> decide

theorem isDigitChar_ofNat (d : ℕ) (hd : d < 10) :
    isDigitChar (Char.ofNat (48 + d)) = true := by
  interval_cases d <;> decide

theorem natToDigitsAux_digits :
    ∀ (fuel n : ℕ) (c : Char), c ∈ natToDigitsAux fuel n → isDigitChar c = true := by
  intro fuel
  induction fuel with
  | zero => intro n c hc; simp [natToDigitsAux] at hc
  | succ fuel ih =>
    intro n c hc
    rw [natToDigitsAux] at hc
    by_cases hn : n = 0
    · rw [if_pos hn] at hc
      simp at hc
    · rw [if_neg hn] at hc
      rcases List.mem_cons.mp hc with rfl | hm
      · exact isDigitChar_ofNat (n % 10) (Nat.mod_lt n (by norm_num))
      · exact ih (n / 10) c hm

theorem valueOf_reverse_natToDigitsAux :
    ∀ (fuel n : ℕ), n ≤ fuel → valueOf (natToDigitsAux fuel n).reverse = n := by
  intro fuel
  induction fuel with
  | zero =>
    intro n hn
    interval_cases n
    rfl
  | succ fuel ih =>
    intro n hn
    rw [natToDigitsAux]
    by_cases hzero : n = 0
    · rw [if_pos hzero, hzero]
      rfl
    · rw [if_neg hzero]
      have hdiv : n / 10 ≤ fuel := by
        have := Nat.div_lt_self (Nat.pos_of_ne_zero hzero) (by norm_num : 1 < 10)
        omega
      rw [List.reverse_cons, valueOf, List.foldl_append]
      have hrec : valueOf (natToDigitsAux fuel (n / 10)).reverse = n / 10 := ih _ hdiv
      rw [valueOf] at hrec
      rw [hrec]
      simp only [List.foldl_cons, List.foldl_nil]
      rw [dval_ofNat (n % 10) (Nat.mod_lt n (by norm_num))]
      omega

theorem valueOf_pad_zero : ∀ (k : ℕ) (cs : List Char),
    valueOf (List.replicate k '0' ++ cs) = valueOf cs := by
  intro k
  induction k with
  | zero => intro cs; rfl
  | succ k ih =>
    intro cs
    rw [List.replicate_succ, List.cons_append, valueOf, List.foldl_cons]
    have h0 : 10 * 0 + dval '0' = 0 := by decide
    rw [h0]
    exact ih cs

theorem pyIntDigits_padN (k n : ℕ) (hk : 0 < k) :
    pyIntDigits (padN k (natDigits n)) = some n := by
  have hne : padN k (natDigits n) ≠ [] := by
    rw [padN]
    cases hD : natDigits n with
    | nil =>
      simp only [hD, List.append_nil]
      have : k - ([] : List Char).length = k := by simp
      rw [this]
      cases k with
      | zero => omega
      | succ k => simp [List.replicate_succ]
    | cons c cs => simp
  have hall : (padN k (natDigits n)).all isDigitChar = true := by
    rw [List.all_eq_true]
    intro c hc
    rw [padN] at hc
    rcases List.mem_append.mp hc with hrep | hdig
    · have := List.eq_of_mem_replicate hrep
      subst this
      decide
    · exact natToDigitsAux_digits n n c (List.mem_reverse.mp
        (by simpa [natDigits] using hdig))
  rw [pyIntDigits, if_pos ⟨hne, hall⟩, padN, valueOf_pad_zero]
  rw [show valueOf (natDigits n) = n from valueOf_reverse_natToDigitsAux n n le_rfl]

theorem padN_natDigits_ne_nil (k n : ℕ) (hk : 0 < k) :
    padN k (natDigits n) ≠ [] := by
  rw [padN]
  cases hD : natDigits n with
  | nil =>
    simp only [hD, List.append_nil, List.length_nil, Nat.sub_zero]
    cases k with
    | zero => omega
    | succ k => simp [List.replicate_succ]
  | cons c cs => simp

theorem padN_natDigits_all (k n : ℕ) :
    (padN k (natDigits n)).all isDigitChar = true := by
  rw [List.all_eq_true]
  intro c hc
  rw [padN] at hc
  rcases List.mem_append.mp hc with hrep | hdig
  · have := List.eq_of_mem_replicate hrep
    subst this
    decide
  · exact natToDigitsAux_digits n n c (List.mem_reverse.mp
      (by simpa [natDigits] using hdig))

theorem valueOf_padN (k n : ℕ) : valueOf (padN k (natDigits n)) = n := by
  rw [padN, valueOf_pad_zero]
  exact valueOf_reverse_natToDigitsAux n n le_rfl

theorem pyIntDigits_eq (cs : List Char) (hne : cs ≠ [])
    (hall : cs.all isDigitChar = true) : pyIntDigits cs = some (valueOf cs) := by
  rw [pyIntDigits, if_pos ⟨hne, hall⟩]

theorem mapComma_digits (X : List Char) (hX : X.all isDigitChar = true) :
    (X.map fun c => if c = ',' then '.' else c) = X := by
  induction X with
  | nil => rfl
  | cons x xs ih =>
    rw [List.all_cons, Bool.and_eq_true] at hX
    rw [List.map_cons, if_neg (digitChar_props x hX.1).2.1, ih hX.2]

theorem not_mem_of_all_digits (X : List Char) (hX : X.all isDigitChar = true)
    (c : Char) (hc : isDigitChar c = false) : c ∉ X := by
  intro hm
  have := List.all_eq_true.mp hX c hm
  rw [this] at hc
  exact absurd hc (by simp)

theorem parseTimestamp_canonical (A B C D : List Char)
    (hA : A ≠ []) (hB : B ≠ []) (hC : C ≠ []) (hD : D ≠ [])
    (dA : A.all isDigitChar = true) (dB : B.all isDigitChar = true)
    (dC : C.all isDigitChar = true) (dD : D.all isDigitChar = true) :
    parseTimestamp (A ++ ':' :: (B ++ ':' :: (C ++ ',' :: D))) =
      (valueOf A * 3600 + valueOf B * 60 + valueOf C) * 1000 + valueOf D := by
  have hcolon : isDigitChar ':' = false := by decide
  have hdot : isDigitChar '.' = false := by decide
  have hne : (A ++ ':' :: (B ++ ':' :: (C ++ ',' :: D))) ≠ [] := by simp
  have hmap : ((A ++ ':' :: (B ++ ':' :: (C ++ ',' :: D))).map
      fun c => if c = ',' then '.' else c) =
      A ++ ':' :: (B ++ ':' :: (C ++ '.' :: D)) := by
    simp only [List.map_append, List.map_cons, mapComma_digits A dA,
      mapComma_digits B dB, mapComma_digits C dC, mapComma_digits D dD]
    simp
  have hnoC : ':' ∉ C ++ '.' :: D := by
    intro hm
    rcases List.mem_append.mp hm with h1 | h2
    · exact not_mem_of_all_digits C dC ':' hcolon h1
    · rcases List.mem_cons.mp h2 with h3 | h4
      · exact absurd h3 (by decide)
      · exact not_mem_of_all_digits D dD ':' hcolon h4
  have hsplit1 : pySplit ':' (A ++ ':' :: (B ++ ':' :: (C ++ '.' :: D))) =
      [A, B, C ++ '.' :: D] := by
    rw [pySplit_sep_cons ':' A _ (not_mem_of_all_digits A dA ':' hcolon),
      pySplit_sep_cons ':' B _ (not_mem_of_all_digits B dB ':' hcolon),
      pySplit_no_sep ':' _ hnoC]
  have hsplit2 : pySplit '.' (C ++ '.' :: D) = [C, D] := by
    rw [pySplit_sep_cons '.' C D (not_mem_of_all_digits C dC '.' hdot),
      pySplit_no_sep '.' D (not_mem_of_all_digits D dD '.' hdot)]
  rw [parseTimestamp, if_neg hne]
  simp only [hmap, hsplit1, hsplit2, pyIntDigits_eq A hA dA, pyIntDigits_eq B hB dB,
    pyIntDigits_eq C hC dC, pyIntDigits_eq D hD dD]

/-- Claim C10: for every millisecond count, parsing the formatted SRT
timestamp returns the original value:
`parse_timestamp(format_timestamp(ms)) = ms`. -/
theorem parse_format_timestamp_roundtrip (ms : ℕ) :
    parseTimestamp (formatTimestamp ms) = ms := by
  have hfmt : formatTimestamp ms =
      padN 2 (natDigits (ms / 1000 / 60 / 60)) ++ ':' ::
        (padN 2 (natDigits (ms / 1000 / 60 % 60)) ++ ':' ::
          (padN 2 (natDigits (ms / 1000 % 60)) ++ ',' ::
            padN 3 (natDigits (ms % 1000)))) := rfl
  rw [hfmt, parseTimestamp_canonical _ _ _ _
    (padN_natDigits_ne_nil 2 _ (by norm_num)) (padN_natDigits_ne_nil 2 _ (by norm_num))
    (padN_natDigits_ne_nil 2 _ (by norm_num)) (padN_natDigits_ne_nil 3 _ (by norm_num))
    (padN_natDigits_all 2 _) (padN_natDigits_all 2 _)
    (padN_natDigits_all 2 _) (padN_natDigits_all 3 _),
    valueOf_padN, valueOf_padN, valueOf_padN, valueOf_padN]
  omega
